import Mathlib

/-
  Verification development for the onnx-pytorch code-generator registry and
  generator contract (src/onnx_pytorch/code_generator_loader.py and
  src/onnx_pytorch/op_code_generators/__init__.py).

  Python dicts are modelled as association lists in which the first
  occurrence of a key is the live binding; the operations dictFind /
  dictInsert / dictErase mirror d[k], d[k] = v and del d[k], all acting on
  the first occurrence (in a real Python dict keys are unique, so this is
  exact on well-formed states).
-/

namespace OnnxPytorch

/-- Lookup in the Python-dict model: value at the first occurrence of key k. -/
def dictFind {α : Type} (d : List (String × α)) (k : String) : Option α :=
  match d with
  | [] => none
  | p :: t => if p.1 = k then some p.2 else dictFind t k

/-- Python dict assignment d[k] = v: replace the binding in place when the key
is present, append at the end otherwise. -/
def dictInsert {α : Type} (d : List (String × α)) (k : String) (v : α) : List (String × α) :=
  match d with
  | [] => [(k, v)]
  | p :: t => if p.1 = k then (k, v) :: t else p :: dictInsert t k v

/-- Python del d[k]: remove the binding of k (first occurrence). -/
def dictErase {α : Type} (d : List (String × α)) (k : String) : List (String × α) :=
  match d with
  | [] => []
  | p :: t => if p.1 = k then t else p :: dictErase t k

/-- Python membership test: k in d. -/
def dictContains {α : Type} (d : List (String × α)) (k : String) : Bool :=
  (dictFind d k).isSome

/-- Value of the LAST occurrence of key k in a raw pair list (Python dict
construction from a pair list keeps the last value for a repeated key). -/
def lastFind {α : Type} (l : List (String × α)) (k : String) : Option α :=
  match l with
  | [] => none
  | p :: t =>
    match lastFind t k with
    | some v => some v
    | none => if p.1 = k then some p.2 else none

/-- Python dict(pairs): fold the pair list into a dict, later pairs winning. -/
def dictOfPairs {α : Type} (l : List (String × α)) : List (String × α) :=
  l.foldl (fun d p => dictInsert d p.1 p.2) []

/- ===== code_generator_loader.py ===== -/

/-- CodeGeneratorPack (code_generator_loader.py:12-21): version plus the
module handle and class name from which .new() instantiates a generator.
The module is represented by its name. -/
structure CodeGeneratorPack where
  version : Int
  module : String
  class_name : String
deriving DecidableEq, Repr

/-- An instantiated generator, as produced by CodeGeneratorPack.new()
(code_generator_loader.py:17-21): identified by the pack it was built from;
a fresh instance is constructed on every call. -/
structure OpCodeGeneratorInstance where
  pack : CodeGeneratorPack
deriving DecidableEq, Repr

/-- CodeGeneratorPack.new (code_generator_loader.py:17-21). -/
def CodeGeneratorPack.new (p : CodeGeneratorPack) : OpCodeGeneratorInstance :=
  ⟨p⟩

/-- OpSet = Dict[str, List[CodeGeneratorPack]] (code_generator_loader.py:24). -/
abbrev OpSet := List (String × List CodeGeneratorPack)

/-- The domain2opset table: Dict[str, OpSet] (code_generator_loader.py:29). -/
abbrev DomainTable := List (String × OpSet)

/-- Stable insertion into a version-descending list, placing the new pack
before the first pack whose version it reaches. -/
def insertPackDesc (p : CodeGeneratorPack) : List CodeGeneratorPack → List CodeGeneratorPack
  | [] => [p]
  | q :: t => if q.version ≤ p.version then p :: q :: t else q :: insertPackDesc p t

/-- Python list.sort(key=version, reverse=True) (code_generator_loader.py:40):
the unique stable descending sort, realised as insertion sort. -/
def sortPacksDesc : List CodeGeneratorPack → List CodeGeneratorPack
  | [] => []
  | p :: t => insertPackDesc p (sortPacksDesc t)

/-- Domain normalization (code_generator_loader.py:33-34 and 92-93): None or
the empty string become the default domain ai.onnx. -/
def normalizeDomain (domain : Option String) : String :=
  match domain with
  | none => "ai.onnx"
  | some d => if d = "" then "ai.onnx" else d

namespace CodeGeneratorLoader

/-- CodeGeneratorLoader.register_code_generator (code_generator_loader.py:32-40):
normalize the domain, create the domain and operator buckets when missing,
append the pack and re-sort that bucket by version descending. -/
def register_code_generator (st : DomainTable) (domain : Option String)
    (op_name : String) (pack : CodeGeneratorPack) : DomainTable :=
  let d := normalizeDomain domain
  let st1 := if dictContains st d then st else dictInsert st d []
  let opset := (dictFind st1 d).getD []
  let opset1 := if dictContains opset op_name then opset else dictInsert opset op_name []
  let packs := (dictFind opset1 op_name).getD []
  dictInsert st1 d (dictInsert opset1 op_name (sortPacksDesc (packs ++ [pack])))

/-- CodeGeneratorLoader.get (code_generator_loader.py:91-103): normalize the
domain; on a hit, no requested version returns a fresh instance of the first
(highest-versioned) pack, a requested version returns the first pack in the
version-descending list whose version it reaches; otherwise None. -/
def get (st : DomainTable) (domain : Option String) (op_name : String)
    (version : Option Int) : Option OpCodeGeneratorInstance :=
  let d := normalizeDomain domain
  match dictFind st d with
  | some opset =>
    match dictFind opset op_name with
    | some packs =>
      match version with
      | none => packs.head?.map CodeGeneratorPack.new
      | some v => (packs.find? (fun pack => v ≥ pack.version)).map CodeGeneratorPack.new
    | none => none
  | none => none

/-- Result of CodeGeneratorLoader.drop: the table after all mutations that
happened, plus whether the call raised a KeyError. -/
structure DropResult where
  table : DomainTable
  keyError : Bool
deriving DecidableEq, Repr

/-- CodeGeneratorLoader.drop (code_generator_loader.py:105-112): when the
domain is present, delete the whole domain (op_name None) or that operator
entry (op_name present in the domain); afterwards the code unconditionally
evaluates len(self.domain2opset[domain]) — a KeyError when the domain itself
was just deleted — and deletes the domain when its operator map is empty. -/
def drop (st : DomainTable) (domain : String) (op_name : Option String) : DropResult :=
  if dictContains st domain then
    let st1 :=
      match op_name with
      | none => dictErase st domain
      | some op =>
        let opset := (dictFind st domain).getD []
        if dictContains opset op then dictInsert st domain (dictErase opset op) else st
    match dictFind st1 domain with
    | none => ⟨st1, true⟩
    | some opset1 => if opset1.length = 0 then ⟨dictErase st1 domain, false⟩ else ⟨st1, false⟩
  else ⟨st, false⟩

/-- CodeGeneratorLoader.reset (code_generator_loader.py:114-115). -/
def reset : DomainTable := []

/-- CodeGeneratorLoader.__len__ (code_generator_loader.py:117-125): the sum,
over the domains, of the number of operator entries — the number of
(domain, operator) pairs, not of version packs. -/
def len (st : DomainTable) : Nat :=
  (st.map (fun ops => ops.2.length)).sum

/-- The builtin pack registered for one builtin module
(code_generator_loader.py:137): version hard-wired to 5, class name
module_name + OpCodeGenerator. -/
def builtinPack (module_name : String) : CodeGeneratorPack :=
  ⟨5, module_name, module_name ++ "OpCodeGenerator"⟩

/-- CodeGeneratorLoader._register_builtin_code_generators plus __init__
(code_generator_loader.py:27-30 and 127-140): starting from the empty table,
register every builtin module (those exposing a matching generator class,
supplied here as the list of their names) under domain None with its builtin
pack. -/
def mkLoader (builtin_modules : List String) : DomainTable :=
  builtin_modules.foldl
    (fun st m => register_code_generator st none m (builtinPack m)) []

/-- The pack list registered under a (domain, operator) pair, when present. -/
def entryPacks (st : DomainTable) (domain : Option String) (op_name : String) :
    Option (List CodeGeneratorPack) :=
  match dictFind st (normalizeDomain domain) with
  | some opset => dictFind opset op_name
  | none => none

/-- One Python class found in an externally supplied source file, as seen by
register_from_py_file (code_generator_loader.py:74-86): its name, whether it
is a subclass of CustomOpCodeGenerator, and its three optional class-level
metadata fields (None when the class itself does not carry the field; the
getattr defaults coincide with the values inherited from the base classes:
custom for the domain and 1 for the version). -/
structure PyClass where
  name : String
  custom : Bool
  op_domain : Option String
  op_name : Option String
  op_version : Option Int
deriving DecidableEq, Repr

/-- A class qualifies for registration (code_generator_loader.py:75-76): it is
a CustomOpCodeGenerator subclass other than the base class itself. -/
def qualifies (c : PyClass) : Bool :=
  c.custom && !(c.name = "CustomOpCodeGenerator" : Bool)

/-- CodeGeneratorLoader.register_from_py_file (code_generator_loader.py:42-89),
its registration loop: the path checks and the module import are I/O and are
elided; the module is represented by its name and the list of classes it
declares. Each qualifying class is registered under its metadata (domain
default custom, operator name default the class name, version default 1) and
the number of registered classes is returned. -/
def register_from_py_file (st : DomainTable) (module : String)
    (classes : List PyClass) : DomainTable × Nat :=
  classes.foldl
    (fun acc c =>
      if qualifies c then
        (register_code_generator acc.1 (some (c.op_domain.getD "custom"))
          (c.op_name.getD c.name)
          ⟨c.op_version.getD 1, module, c.name⟩,
         acc.2 + 1)
      else acc)
    (st, 0)

end CodeGeneratorLoader

/- ===== op_code_generators/__init__.py ===== -/

/-- An ONNX graph node as consumed by the generator helpers
(op_code_generators/__init__.py): ordered input and output tensor names and
the node attributes as (name, extracted value) pairs, V being the attribute
value type (onnx.helper.get_attribute_value is applied at access, so the
pairs here already carry the extracted values). -/
structure Node (V : Type) where
  input : List String
  output : List String
  /-- models node.attribute (the Lean keyword forces the shorter field name) -/
  attrs : List (String × V)

/-- The rename/naming-canonicalization subsystem consumed by
gen_input_output_string: per-name graph-wide usage counts
(tensor_name_counter), the alias mapping (tensor_name_mapping) and the
underlying canonicalization of unmapped names (canon). The subsystem itself
is not part of the registry sources; only the two dict fields it exposes are
read and written there. -/
structure RenameHelper where
  tensor_name_counter : String → Nat
  tensor_name_mapping : List (String × String)
  canon : String → String

/-- Modelled from the spec: the rename helper's get_tensor_name (the
rename/naming-canonicalization subsystem is an external collaborator, not in
the registry sources). A name that the usage ledger has remapped resolves to
its mapped (already canonical) name, so subsequent references to an aliased
output automatically read the aliased storage; any other name resolves to
its canonical local name. -/
def RenameHelper.get_tensor_name (rh : RenameHelper) (n : String) : String :=
  match dictFind rh.tensor_name_mapping n with
  | some m => m
  | none => rh.canon n

/-- The reference expression emitted for one tensor
(op_code_generators/__init__.py:112-115): an initializer is referenced
through persistent storage (self._vars[...]), any other tensor by its
canonical name. inits models the initializers dict; only key membership
matters here. -/
def refExpr {W : Type} (inits : List (String × W)) (rh : RenameHelper)
    (tensor_name : String) : String :=
  if dictContains inits tensor_name then
    "self._vars[\"" ++ rh.get_tensor_name tensor_name ++ "\"]"
  else
    rh.get_tensor_name tensor_name

/-- One iteration of the inner loop of gen_input_output_string
(op_code_generators/__init__.py:93-116): idx 0 walks the inputs, idx 1 the
outputs; f is node.input resp. node.output, acc carries the emitted strings
and the (mutable) rename helper. The in-place branch fires exactly on the
conjunction at lines 100-106. -/
def ioStep {V W : Type} (node : Node V) (inits : List (String × W))
    (tensor_inplace : Bool) (f : List String) (idx : Nat)
    (acc : List String × RenameHelper) (i : Nat) : List String × RenameHelper :=
  let rh := acc.2
  let fi := f.getD i ""
  if idx = 1 ∧ i = 0 ∧ tensor_inplace = true ∧ 0 < node.input.length ∧
      dictContains inits (node.input.getD 0 "") = false ∧
      rh.tensor_name_counter fi = 2 ∧
      rh.tensor_name_counter (node.input.getD 0 "") = 2 then
    let tensor_name := node.input.getD 0 ""
    let rh2 : RenameHelper :=
      { rh with tensor_name_mapping :=
          dictInsert rh.tensor_name_mapping fi (rh.get_tensor_name tensor_name) }
    (acc.1 ++ [refExpr inits rh2 tensor_name], rh2)
  else
    (acc.1 ++ [refExpr inits rh fi], rh)

/-- Python truthiness of input_num or len(...) at
op_code_generators/__init__.py:88-89: None and 0 both fall back. -/
def numOr (n : Option Nat) (d : Nat) : Nat :=
  match n with
  | none => d
  | some k => if k = 0 then d else k

/-- Result of gen_input_output_string: the two emitted string lists and the
rename helper after its mutations. -/
structure GenIO where
  inputs_str : List String
  outputs_str : List String
  rename_helper : RenameHelper

/-- OpCodeGenerator.gen_input_output_string
(op_code_generators/__init__.py:80-118). -/
def gen_input_output_string {V W : Type} (node : Node V)
    (inits : List (String × W)) (rename_helper : RenameHelper)
    (tensor_inplace : Bool) (input_num output_num : Option Nat) : GenIO :=
  let inNum := numOr input_num node.input.length
  let outNum := numOr output_num node.output.length
  let rIn := (List.range inNum).foldl
    (ioStep node inits tensor_inplace node.input 0) ([], rename_helper)
  let rOut := (List.range outNum).foldl
    (ioStep node inits tensor_inplace node.output 1) ([], rIn.2)
  ⟨rIn.1, rOut.1, rOut.2⟩

/-- The five-fold in-place condition of gen_input_output_string at the first
output (op_code_generators/__init__.py:100-106): aliasing enabled, at least
one input, first input not an initializer, and both the first output and the
first input counted exactly twice graph-wide. -/
def aliasConditions {V W : Type} (node : Node V) (inits : List (String × W))
    (rh : RenameHelper) (tensor_inplace : Bool) : Prop :=
  tensor_inplace = true ∧ 0 < node.input.length ∧
  dictContains inits (node.input.getD 0 "") = false ∧
  rh.tensor_name_counter (node.output.getD 0 "") = 2 ∧
  rh.tensor_name_counter (node.input.getD 0 "") = 2

/-- The rename helper after the alias remap: the first output name now
resolves to the first input's canonical name
(op_code_generators/__init__.py:107-109). -/
def aliasedRH {V : Type} (node : Node V) (rh : RenameHelper) : RenameHelper :=
  let m := dictInsert rh.tensor_name_mapping (node.output.getD 0 "")
    (rh.get_tensor_name (node.input.getD 0 ""))
  { rh with tensor_name_mapping := m }

/-- OpCodeGenerator.get_attr_value_dict (op_code_generators/__init__.py:72-78):
build a dict from the node's attributes, then a dict from the default items
followed by the node items — node-specified values win key by key. -/
def get_attr_value_dict {V : Type} (attr_default : List (String × V))
    (node : Node V) : List (String × V) :=
  let attr_value_dict := dictOfPairs node.attrs
  dictOfPairs (attr_default ++ attr_value_dict)

/-- One iteration of the loop of check_in_init
(op_code_generators/__init__.py:131-135): resolve the target name against the
initializers, record the resolved value, and append the name to the missing
list when it resolves to nothing. -/
def check_in_init_step {V : Type} (inits : List (String × V))
    (acc : List String × List (Option V)) (t : String × String) :
    List String × List (Option V) :=
  match dictFind inits t.2 with
  | none => (acc.1 ++ [t.2], acc.2 ++ [dictFind inits t.2])
  | some _ => (acc.1, acc.2 ++ [dictFind inits t.2])

/-- OpCodeGenerator.check_in_init (op_code_generators/__init__.py:128-140):
walk the (purpose, tensor-name) targets, collecting the resolved initializer
values and the missing names; raise (error) carrying every missing name when
any is missing, otherwise return the resolved values in target order. -/
def check_in_init {V : Type} (targets : List (String × String))
    (inits : List (String × V)) : Except (List String) (List (Option V)) :=
  let acc := targets.foldl (check_in_init_step inits) ([], [])
  if acc.1 = [] then Except.ok acc.2 else Except.error acc.1

/- ===== registry invariant and reachable states ===== -/

/-- A pack list sorted by version descending. -/
abbrev PacksSortedDesc (l : List CodeGeneratorPack) : Prop :=
  l.Pairwise (fun a b => b.version ≤ a.version)

/-- The registry table invariant: the empty-string domain is never a key, no
domain maps to an empty operator map, and every (domain, operator) entry
holds a non-empty pack list sorted by version descending. -/
def TableWF (st : DomainTable) : Prop :=
  ∀ p ∈ st, p.1 ≠ "" ∧ p.2 ≠ [] ∧ ∀ q ∈ p.2, q.2 ≠ [] ∧ PacksSortedDesc q.2

/-- One mutation of the registry: register_code_generator, drop (taking the
table it leaves behind, whether or not it raised) or reset. -/
inductive Step : DomainTable → DomainTable → Prop
  | register (st : DomainTable) (domain : Option String) (op_name : String)
      (pack : CodeGeneratorPack) :
      Step st (CodeGeneratorLoader.register_code_generator st domain op_name pack)
  | drop (st : DomainTable) (domain : String) (op_name : Option String) :
      Step st (CodeGeneratorLoader.drop st domain op_name).table
  | reset (st : DomainTable) : Step st CodeGeneratorLoader.reset

/-- States reachable from a given starting table by register / drop / reset. -/
def ReachableFrom (start st : DomainTable) : Prop :=
  Relation.ReflTransGen Step start st

open CodeGeneratorLoader

/- ===== dict model lemmas ===== -/

theorem dictFind_dictInsert_self {α : Type} (d : List (String × α)) (k : String) (v : α) :
    dictFind (dictInsert d k v) k = some v := by
  induction d with
  | nil => simp [dictInsert, dictFind]
  | cons p t ih =>
    by_cases h : p.1 = k
    · simp [dictInsert, h, dictFind]
    · simp [dictInsert, h, dictFind, ih]

theorem dictFind_dictInsert_ne {α : Type} (d : List (String × α)) {k k' : String} (v : α)
    (h : k' ≠ k) : dictFind (dictInsert d k v) k' = dictFind d k' := by
  have h' : ¬ k = k' := fun hh => h hh.symm
  induction d with
  | nil => simp [dictInsert, dictFind, h']
  | cons p t ih =>
    by_cases hp : p.1 = k
    · subst hp
      simp [dictInsert, dictFind, h']
    · simp [dictInsert, hp, dictFind, ih]

theorem dictInsert_absent {α : Type} {d : List (String × α)} {k : String} (v : α)
    (h : dictFind d k = none) : dictInsert d k v = d ++ [(k, v)] := by
  induction d with
  | nil => simp [dictInsert]
  | cons p t ih =>
    by_cases hp : p.1 = k
    · simp [dictFind, hp] at h
    · simp [dictFind, hp] at h
      simp [dictInsert, hp, ih h]

theorem mem_dictInsert {α : Type} {d : List (String × α)} {k : String} {v : α}
    {q : String × α} (h : q ∈ dictInsert d k v) : q = (k, v) ∨ q ∈ d := by
  induction d with
  | nil => simpa [dictInsert] using h
  | cons p t ih =>
    by_cases hp : p.1 = k
    · simp [dictInsert, hp] at h
      rcases h with h | h
      · exact Or.inl h
      · exact Or.inr (List.mem_cons_of_mem _ h)
    · simp [dictInsert, hp] at h
      rcases h with h | h
      · exact Or.inr (h ▸ List.mem_cons_self _ _)
      · rcases ih h with h' | h'
        · exact Or.inl h'
        · exact Or.inr (List.mem_cons_of_mem _ h')

theorem mem_dictErase {α : Type} {d : List (String × α)} {k : String}
    {q : String × α} (h : q ∈ dictErase d k) : q ∈ d := by
  induction d with
  | nil => simp [dictErase] at h
  | cons p t ih =>
    by_cases hp : p.1 = k
    · simp [dictErase, hp] at h
      exact List.mem_cons_of_mem _ h
    · simp [dictErase, hp] at h
      rcases h with h | h
      · exact h ▸ List.mem_cons_self _ _
      · exact List.mem_cons_of_mem _ (ih h)

theorem dictFind_mem {α : Type} {d : List (String × α)} {k : String} {v : α}
    (h : dictFind d k = some v) : (k, v) ∈ d := by
  induction d with
  | nil => simp [dictFind] at h
  | cons p t ih =>
    by_cases hp : p.1 = k
    · simp [dictFind, hp] at h
      have : p = (k, v) := by
        cases p with
        | mk a b => simp_all
      exact this ▸ List.mem_cons_self _ _
    · simp [dictFind, hp] at h
      exact List.mem_cons_of_mem _ (ih h)

theorem dictErase_dictInsert {α : Type} (d : List (String × α)) (k : String) (v : α) :
    dictErase (dictInsert d k v) k = dictErase d k := by
  induction d with
  | nil => simp [dictInsert, dictErase]
  | cons p t ih =>
    by_cases hp : p.1 = k
    · simp [dictInsert, hp, dictErase]
    · simp [dictInsert, hp, dictErase, ih]

theorem length_dictInsert_present {α : Type} {d : List (String × α)} {k : String}
    {w : α} (v : α) (h : dictFind d k = some w) :
    (dictInsert d k v).length = d.length := by
  induction d with
  | nil => simp [dictFind] at h
  | cons p t ih =>
    by_cases hp : p.1 = k
    · simp [dictInsert, hp]
    · simp [dictFind, hp] at h
      simp [dictInsert, hp, ih h]

theorem length_dictInsert_absent {α : Type} {d : List (String × α)} {k : String}
    (v : α) (h : dictFind d k = none) :
    (dictInsert d k v).length = d.length + 1 := by
  rw [dictInsert_absent v h]
  simp

theorem dictInsert_ne_nil {α : Type} (d : List (String × α)) (k : String) (v : α) :
    dictInsert d k v ≠ [] := by
  cases d with
  | nil => simp [dictInsert]
  | cons p t =>
    by_cases hp : p.1 = k
    · simp [dictInsert, hp]
    · simp [dictInsert, hp]

/- ===== sort lemmas ===== -/

theorem mem_insertPackDesc {p q : CodeGeneratorPack} {l : List CodeGeneratorPack} :
    q ∈ insertPackDesc p l ↔ q = p ∨ q ∈ l := by
  induction l with
  | nil => simp [insertPackDesc]
  | cons r t ih =>
    by_cases h : r.version ≤ p.version
    · simp [insertPackDesc, h]
    · simp [insertPackDesc, h, ih]
      tauto

theorem length_insertPackDesc (p : CodeGeneratorPack) (l : List CodeGeneratorPack) :
    (insertPackDesc p l).length = l.length + 1 := by
  induction l with
  | nil => simp [insertPackDesc]
  | cons r t ih =>
    by_cases h : r.version ≤ p.version
    · simp [insertPackDesc, h]
    · simp [insertPackDesc, h, ih]

theorem length_sortPacksDesc (l : List CodeGeneratorPack) :
    (sortPacksDesc l).length = l.length := by
  induction l with
  | nil => simp [sortPacksDesc]
  | cons p t ih => simp [sortPacksDesc, length_insertPackDesc, ih]

theorem sorted_insertPackDesc (p : CodeGeneratorPack) :
    ∀ {l : List CodeGeneratorPack}, PacksSortedDesc l →
      PacksSortedDesc (insertPackDesc p l) := by
  intro l
  induction l with
  | nil =>
    intro _
    simp [insertPackDesc]
  | cons r t ih =>
    intro h
    rcases (List.pairwise_cons.mp h) with ⟨hr, ht⟩
    by_cases hv : r.version ≤ p.version
    · simp only [insertPackDesc, if_pos hv]
      refine List.pairwise_cons.mpr ⟨?_, h⟩
      intro q hq
      rcases List.mem_cons.mp hq with hq | hq
      · exact hq ▸ hv
      · exact le_trans (hr q hq) hv
    · simp only [insertPackDesc, if_neg hv]
      refine List.pairwise_cons.mpr ⟨?_, ih ht⟩
      intro q hq
      rcases mem_insertPackDesc.mp hq with hq | hq
      · exact hq ▸ le_of_not_le hv
      · exact hr q hq

theorem sorted_sortPacksDesc (l : List CodeGeneratorPack) :
    PacksSortedDesc (sortPacksDesc l) := by
  induction l with
  | nil => simp [sortPacksDesc]
  | cons p t ih => exact sorted_insertPackDesc p ih

theorem sortPacksDesc_ne_nil {l : List CodeGeneratorPack} (h : l ≠ []) :
    sortPacksDesc l ≠ [] := by
  intro hc
  apply h
  have hlen := length_sortPacksDesc l
  rw [hc] at hlen
  exact List.length_eq_zero.mp hlen.symm

/- ===== registry operation lemmas ===== -/

theorem normalizeDomain_ne_empty (d : Option String) : normalizeDomain d ≠ "" := by
  match d with
  | none => simp [normalizeDomain]
  | some s =>
    by_cases h : s = ""
    · simp [normalizeDomain, h]
    · simp [normalizeDomain, h]

theorem dictFind_register (st : DomainTable) (domain : Option String)
    (op_name : String) (pack : CodeGeneratorPack) :
    dictFind (register_code_generator st domain op_name pack) (normalizeDomain domain) =
      some (dictInsert
        (let opset := (dictFind st (normalizeDomain domain)).getD []
         if dictContains opset op_name then opset else dictInsert opset op_name [])
        op_name
        (sortPacksDesc (((entryPacks st domain op_name).getD []) ++ [pack]))) := by
  unfold CodeGeneratorLoader.register_code_generator CodeGeneratorLoader.entryPacks
  set d := normalizeDomain domain with hd
  cases hfd : dictFind st d with
  | none =>
    simp [dictContains, hfd, dictFind_dictInsert_self, dictFind, dictInsert]
  | some opset =>
    cases hfo : dictFind opset op_name with
    | none =>
      simp [dictContains, hfd, hfo, dictFind_dictInsert_self]
    | some packs =>
      simp [dictContains, hfd, hfo, dictFind_dictInsert_self]

theorem dictFind_register_ne (st : DomainTable) (domain : Option String)
    (op_name : String) (pack : CodeGeneratorPack) {d' : String}
    (h : d' ≠ normalizeDomain domain) :
    dictFind (register_code_generator st domain op_name pack) d' = dictFind st d' := by
  unfold CodeGeneratorLoader.register_code_generator
  set d := normalizeDomain domain with hd
  cases hfd : dictFind st d with
  | none =>
    simp only [dictContains, hfd, Option.isSome_none, Bool.false_eq_true, if_false]
    rw [dictFind_dictInsert_ne _ _ h, dictFind_dictInsert_ne _ _ h]
  | some opset =>
    simp only [dictContains, hfd, Option.isSome_some, if_true]
    rw [dictFind_dictInsert_ne _ _ h]

theorem entryPacks_register_self (st : DomainTable) (domain : Option String)
    (op_name : String) (pack : CodeGeneratorPack) :
    entryPacks (register_code_generator st domain op_name pack) domain op_name =
      some (sortPacksDesc (((entryPacks st domain op_name).getD []) ++ [pack])) := by
  unfold CodeGeneratorLoader.entryPacks
  rw [dictFind_register]
  simp only []
  rw [dictFind_dictInsert_self]
  rfl

theorem entryPacks_register_other (st : DomainTable) (domain domain' : Option String)
    (op_name op_name' : String) (pack : CodeGeneratorPack)
    (h : normalizeDomain domain' ≠ normalizeDomain domain ∨ op_name' ≠ op_name) :
    entryPacks (register_code_generator st domain op_name pack) domain' op_name' =
      entryPacks st domain' op_name' := by
  by_cases hdd : normalizeDomain domain' = normalizeDomain domain
  · have hop : op_name' ≠ op_name := by
      rcases h with h | h
      · exact absurd hdd h
      · exact h
    have hop' : ¬ op_name = op_name' := fun hh => hop hh.symm
    unfold CodeGeneratorLoader.entryPacks
    rw [hdd, dictFind_register]
    cases hfd : dictFind st (normalizeDomain domain) with
    | none =>
      simp [hfd, dictContains, dictFind, dictInsert, hop', dictFind_dictInsert_ne, hop]
    | some opset =>
      cases hfo : dictFind opset op_name with
      | none =>
        simp [hfd, hfo, dictContains, dictFind, dictInsert, hop',
          dictFind_dictInsert_ne, hop]
      | some packs =>
        simp [hfd, hfo, dictContains, dictFind_dictInsert_ne, hop]
  · unfold CodeGeneratorLoader.entryPacks
    rw [dictFind_register_ne _ _ _ _ hdd]

theorem get_eq_entryPacks (st : DomainTable) (domain : Option String)
    (op_name : String) (version : Option Int) :
    CodeGeneratorLoader.get st domain op_name version =
      match entryPacks st domain op_name with
      | none => none
      | some packs =>
        match version with
        | none => packs.head?.map CodeGeneratorPack.new
        | some v => (packs.find? (fun pack => v ≥ pack.version)).map CodeGeneratorPack.new := by
  unfold CodeGeneratorLoader.get CodeGeneratorLoader.entryPacks
  cases hfd : dictFind st (normalizeDomain domain) with
  | none => simp [hfd]
  | some opset =>
    cases hfo : dictFind opset op_name with
    | none => simp [hfd, hfo]
    | some packs => simp [hfd, hfo]

/- ===== invariant preservation ===== -/

theorem mem_dictInsert_twice {α : Type} {d : List (String × α)} {k : String} {v w : α}
    {q : String × α} (h : q ∈ dictInsert (dictInsert d k v) k w) :
    q = (k, w) ∨ q ∈ d := by
  induction d with
  | nil =>
    simp [dictInsert] at h
    exact Or.inl h
  | cons p t ih =>
    by_cases hp : p.1 = k
    · simp [dictInsert, hp] at h
      rcases h with h | h
      · exact Or.inl h
      · exact Or.inr (List.mem_cons_of_mem _ h)
    · simp only [dictInsert, if_neg hp] at h
      rcases List.mem_cons.mp h with h | h
      · exact Or.inr (h ▸ List.mem_cons_self _ _)
      · rcases ih h with h' | h'
        · exact Or.inl h'
        · exact Or.inr (List.mem_cons_of_mem _ h')

theorem tableWF_register {st : DomainTable} (h : TableWF st) (domain : Option String)
    (op_name : String) (pack : CodeGeneratorPack) :
    TableWF (register_code_generator st domain op_name pack) := by
  have hd := normalizeDomain_ne_empty domain
  unfold CodeGeneratorLoader.register_code_generator
  set d := normalizeDomain domain with hdd
  have hsortne : ∀ l : List CodeGeneratorPack, sortPacksDesc (l ++ [pack]) ≠ [] := by
    intro l
    exact sortPacksDesc_ne_nil (by simp)
  have hnew : ∀ opset0 : OpSet,
      (∀ q ∈ opset0, q.2 ≠ [] ∧ PacksSortedDesc q.2) →
      ∀ packs0 : List CodeGeneratorPack,
      ∀ q ∈ dictInsert opset0 op_name (sortPacksDesc (packs0 ++ [pack])),
        q.2 ≠ [] ∧ PacksSortedDesc q.2 := by
    intro opset0 hop packs0 q hq
    rcases mem_dictInsert hq with hq | hq
    · rw [hq]
      exact ⟨hsortne packs0, sorted_sortPacksDesc _⟩
    · exact hop q hq
  cases hfd : dictFind st d with
  | none =>
    simp only [dictContains, hfd, Option.isSome_none, Bool.false_eq_true, if_false,
      dictFind_dictInsert_self, Option.getD_some, dictFind, dictInsert, Option.isSome_some,
      if_true, List.nil_append]
    intro p hp
    rcases mem_dictInsert_twice hp with hp | hp
    · rw [hp]
      refine ⟨hd, by simp, ?_⟩
      intro q hq
      simp only [List.mem_singleton] at hq
      rw [hq]
      exact ⟨sortPacksDesc_ne_nil (by simp), sorted_sortPacksDesc _⟩
    · exact h p hp
  | some opset =>
    have hmem := dictFind_mem hfd
    rcases h _ hmem with ⟨hdne, hopne, hops⟩
    simp only [dictContains, hfd, Option.isSome_some, if_true, Option.getD_some]
    cases hfo : dictFind opset op_name with
    | none =>
      simp only [dictContains, hfo, Option.isSome_none, Bool.false_eq_true, if_false,
        dictFind_dictInsert_self, Option.getD_some]
      intro p hp
      rcases mem_dictInsert hp with hp | hp
      · rw [hp]
        refine ⟨hd, dictInsert_ne_nil _ _ _, ?_⟩
        intro q hq
        rcases mem_dictInsert_twice hq with hq | hq
        · rw [hq]
          exact ⟨hsortne _, sorted_sortPacksDesc _⟩
        · exact hops q hq
      · exact h p hp
    | some packs =>
      simp only [dictContains, hfo, Option.isSome_some, if_true, Option.getD_some]
      intro p hp
      rcases mem_dictInsert hp with hp | hp
      · rw [hp]
        refine ⟨hd, dictInsert_ne_nil _ _ _, ?_⟩
        exact hnew opset hops packs
      · exact h p hp

theorem tableWF_drop {st : DomainTable} (h : TableWF st) (domain : String)
    (op_name : Option String) : TableWF (drop st domain op_name).table := by
  unfold CodeGeneratorLoader.drop
  cases hc : dictContains st domain with
  | false =>
    simp only [hc, Bool.false_eq_true, if_false]
    exact h
  | true =>
    simp only [hc, if_true]
    have herase : TableWF (dictErase st domain) := fun p hp => h p (mem_dictErase hp)
    cases op_name with
    | none =>
      simp only []
      cases hf1 : dictFind (dictErase st domain) domain with
      | none => exact herase
      | some opset1 =>
        have h1 := herase _ (dictFind_mem hf1)
        have : opset1.length ≠ 0 := by
          intro hz
          exact h1.2.1 (List.length_eq_zero.mp hz)
        simp only [this, if_false]
        exact herase
    | some op =>
      simp only []
      rcases Option.isSome_iff_exists.mp hc with ⟨opset, hfd⟩
      rcases h _ (dictFind_mem hfd) with ⟨hdne, hopne, hops⟩
      simp only [hfd, Option.getD_some]
      cases hco : dictContains opset op with
      | false =>
        simp only [Bool.false_eq_true, if_false, hfd]
        have : opset.length ≠ 0 := by
          intro hz
          exact hopne (List.length_eq_zero.mp hz)
        simp only [this, if_false]
        exact h
      | true =>
        simp only [if_true, dictFind_dictInsert_self]
        by_cases hz : (dictErase opset op).length = 0
        · simp only [hz, if_true, dictErase_dictInsert]
          exact herase
        · simp only [hz, if_false]
          intro p hp
          rcases mem_dictInsert hp with hp | hp
          · rw [hp]
            refine ⟨hdne, ?_, ?_⟩
            · intro he
              have he' : dictErase opset op = [] := he
              exact hz (by simp [he'])
            · intro q hq
              exact hops q (mem_dictErase hq)
          · exact h p hp

theorem tableWF_step {st st' : DomainTable} (h : TableWF st) (hs : Step st st') :
    TableWF st' := by
  cases hs with
  | register domain op pack => exact tableWF_register h _ _ _
  | drop domain op => exact tableWF_drop h _ _
  | reset =>
    intro p hp
    simp [CodeGeneratorLoader.reset] at hp

theorem tableWF_of_reachableFrom {start st : DomainTable} (h0 : TableWF start)
    (h : ReachableFrom start st) : TableWF st := by
  induction h with
  | refl => exact h0
  | tail _ hs ih => exact tableWF_step ih hs

/- ===== length lemmas (for the count operation) ===== -/

theorem len_cons (p : String × OpSet) (t : DomainTable) :
    CodeGeneratorLoader.len (p :: t) = p.2.length + CodeGeneratorLoader.len t := by
  simp [CodeGeneratorLoader.len]

theorem len_dictInsert_absent (st : DomainTable) (k : String) (v : OpSet)
    (h : dictFind st k = none) :
    CodeGeneratorLoader.len (dictInsert st k v) = CodeGeneratorLoader.len st + v.length := by
  rw [dictInsert_absent v h]
  simp [CodeGeneratorLoader.len]

theorem len_dictInsert_present (st : DomainTable) (k : String) (v : OpSet) {w : OpSet}
    (h : dictFind st k = some w) :
    CodeGeneratorLoader.len (dictInsert st k v) + w.length =
      CodeGeneratorLoader.len st + v.length := by
  induction st with
  | nil => simp [dictFind] at h
  | cons p t ih =>
    by_cases hp : p.1 = k
    · simp [dictFind, hp] at h
      simp [dictInsert, hp, len_cons, ← h]
      omega
    · simp [dictFind, hp] at h
      simp only [dictInsert, if_neg hp, len_cons]
      have := ih h
      omega

theorem len_register (st : DomainTable) (domain : Option String) (op_name : String)
    (pack : CodeGeneratorPack) :
    CodeGeneratorLoader.len (register_code_generator st domain op_name pack) =
      CodeGeneratorLoader.len st +
        (if (entryPacks st domain op_name).isSome then 0 else 1) := by
  unfold CodeGeneratorLoader.register_code_generator CodeGeneratorLoader.entryPacks
  set d := normalizeDomain domain with hdd
  cases hfd : dictFind st d with
  | none =>
    simp only [dictContains, hfd, Option.isSome_none, Bool.false_eq_true, if_false,
      dictFind_dictInsert_self, Option.getD_some, dictFind, dictInsert, Option.isSome_some,
      if_true, List.nil_append]
    have h1 : dictFind (dictInsert st d ([] : OpSet)) d = some [] := dictFind_dictInsert_self _ _ _
    have h2 := len_dictInsert_present (dictInsert st d ([] : OpSet)) d
      [(op_name, sortPacksDesc [pack])] h1
    have h3 := len_dictInsert_absent st d [] hfd
    simp at h2 h3
    omega
  | some opset =>
    simp only [dictContains, hfd, Option.isSome_some, if_true, Option.getD_some]
    by_cases hfo : dictFind opset op_name = none
    · simp only [dictContains, hfo, Option.isSome_none, Bool.false_eq_true, if_false,
        dictFind_dictInsert_self, Option.getD_some]
      have h1 : dictFind (dictInsert opset op_name ([] : List CodeGeneratorPack)) op_name
          = some [] := dictFind_dictInsert_self _ _ _
      have h2 := length_dictInsert_present (d := dictInsert opset op_name [])
        (sortPacksDesc ([] ++ [pack])) h1
      have h3 := length_dictInsert_absent (d := opset) ([] : List CodeGeneratorPack) hfo
      have h4 := len_dictInsert_present st d
        (dictInsert (dictInsert opset op_name [])
          op_name (sortPacksDesc ([] ++ [pack]))) hfd
      rw [h2, h3] at h4
      omega
    · rcases Option.ne_none_iff_exists'.mp hfo with ⟨packs, hpacks⟩
      simp only [dictContains, hpacks, Option.isSome_some, if_true, Option.getD_some]
      have h2 := length_dictInsert_present (d := opset)
        (sortPacksDesc (packs ++ [pack])) hpacks
      have h4 := len_dictInsert_present st d
        (dictInsert opset op_name (sortPacksDesc (packs ++ [pack]))) hfd
      rw [h2] at h4
      omega

/- ===== dict construction lemmas (for the attribute merge) ===== -/

theorem dictFind_append {α : Type} (l1 l2 : List (String × α)) (k : String) :
    dictFind (l1 ++ l2) k =
      match dictFind l1 k with
      | some v => some v
      | none => dictFind l2 k := by
  induction l1 with
  | nil => simp [dictFind]
  | cons p t ih =>
    by_cases hp : p.1 = k
    · simp [dictFind, hp]
    · simp [dictFind, hp, ih]

theorem lastFind_append {α : Type} (l1 l2 : List (String × α)) (k : String) :
    lastFind (l1 ++ l2) k =
      match lastFind l2 k with
      | some v => some v
      | none => lastFind l1 k := by
  induction l1 with
  | nil =>
    simp only [List.nil_append]
    cases lastFind l2 k with
    | none => simp [lastFind]
    | some v => simp
  | cons p t ih =>
    simp only [List.cons_append, lastFind, List.append_eq]
    rw [ih]
    cases lastFind l2 k with
    | none => simp
    | some v => simp

theorem dictFind_foldl_insert {α : Type} (l : List (String × α)) (d : List (String × α))
    (k : String) :
    dictFind (l.foldl (fun acc p => dictInsert acc p.1 p.2) d) k =
      match lastFind l k with
      | some v => some v
      | none => dictFind d k := by
  induction l generalizing d with
  | nil => simp [lastFind]
  | cons p t ih =>
    simp only [List.foldl_cons, lastFind, ih]
    cases hlt : lastFind t k with
    | some v => simp
    | none =>
      simp only []
      by_cases hp : p.1 = k
      · subst hp
        simp [dictFind_dictInsert_self]
      · simp [hp, dictFind_dictInsert_ne _ _ (fun hh => hp hh.symm)]

theorem dictFind_dictOfPairs {α : Type} (l : List (String × α)) (k : String) :
    dictFind (dictOfPairs l) k = lastFind l k := by
  unfold dictOfPairs
  rw [dictFind_foldl_insert]
  cases lastFind l k with
  | none => simp [dictFind]
  | some v => simp

/-- The keys of the dict model, in order. -/
def dictKeys {α : Type} (d : List (String × α)) : List String :=
  d.map Prod.fst

theorem dictFind_eq_none_of_not_mem_keys {α : Type} {d : List (String × α)} {k : String}
    (h : k ∉ dictKeys d) : dictFind d k = none := by
  induction d with
  | nil => simp [dictFind]
  | cons p t ih =>
    have h1 : ¬ p.1 = k := by
      intro hh
      exact h (by simp [dictKeys, hh])
    have h2 : k ∉ dictKeys t := by
      intro hh
      apply h
      simp only [dictKeys, List.map_cons, List.mem_cons]
      exact Or.inr hh
    simp [dictFind, h1, ih h2]

theorem mem_keys_of_dictFind_some {α : Type} {d : List (String × α)} {k : String} {v : α}
    (h : dictFind d k = some v) : k ∈ dictKeys d := by
  have := dictFind_mem h
  simp [dictKeys]
  exact ⟨v, this⟩

theorem lastFind_eq_dictFind_of_nodup {α : Type} {d : List (String × α)}
    (hn : (dictKeys d).Nodup) (k : String) : lastFind d k = dictFind d k := by
  induction d with
  | nil => simp [lastFind, dictFind]
  | cons p t ih =>
    simp only [dictKeys, List.map_cons, List.nodup_cons] at hn
    have iht := ih hn.2
    simp only [lastFind, dictFind, iht]
    cases hft : dictFind t k with
    | none => simp
    | some v =>
      have hk : k ∈ dictKeys t := mem_keys_of_dictFind_some hft
      have hp : p.1 ≠ k := by
        intro hh
        exact hn.1 (by simpa [dictKeys, hh] using hk)
      simp [hp]

theorem foldl_insert_eq_append {α : Type} :
    ∀ (l d : List (String × α)), (∀ p ∈ l, dictFind d p.1 = none) →
      (dictKeys l).Nodup →
      l.foldl (fun acc p => dictInsert acc p.1 p.2) d = d ++ l := by
  intro l
  induction l with
  | nil => intro d _ _; simp
  | cons p t ih =>
    intro d habs hnod
    simp only [dictKeys, List.map_cons, List.nodup_cons] at hnod
    simp only [List.foldl_cons]
    rw [dictInsert_absent p.2 (habs p (List.mem_cons_self _ _))]
    have habs' : ∀ q ∈ t, dictFind (d ++ [p]) q.1 = none := by
      intro q hq
      rw [dictFind_append]
      rw [habs q (List.mem_cons_of_mem _ hq)]
      have : p.1 ≠ q.1 := by
        intro hh
        exact hnod.1 (hh ▸ by simp [dictKeys]; exact ⟨q.2, hq⟩)
      simp [dictFind, fun hh : p.1 = q.1 => this hh]
    rw [ih (d ++ [p]) habs' hnod.2]
    simp

theorem dictOfPairs_eq_self {α : Type} {l : List (String × α)}
    (h : (dictKeys l).Nodup) : dictOfPairs l = l := by
  unfold dictOfPairs
  rw [foldl_insert_eq_append l [] (by intro p _; simp [dictFind]) h]
  simp

theorem dictKeys_dictInsert_nodup {α : Type} {d : List (String × α)} {k : String} (v : α)
    (h : (dictKeys d).Nodup) : (dictKeys (dictInsert d k v)).Nodup := by
  induction d with
  | nil => simp [dictInsert, dictKeys]
  | cons p t ih =>
    simp only [dictKeys, List.map_cons, List.nodup_cons] at h
    by_cases hp : p.1 = k
    · subst hp
      simp only [dictInsert, if_pos rfl, dictKeys, List.map_cons]
      exact List.nodup_cons.mpr h
    · simp only [dictInsert, if_neg hp, dictKeys, List.map_cons]
      refine List.nodup_cons.mpr ⟨?_, ih h.2⟩
      intro hmem
      simp only [dictKeys, List.mem_map] at hmem
      rcases hmem with ⟨q, hq, hq1⟩
      rcases mem_dictInsert hq with hq' | hq'
      · exact hp (by rw [← hq1, hq'])
      · exact h.1 (by simp [dictKeys]; exact ⟨q.2, hq1 ▸ hq'⟩)

theorem dictKeys_dictOfPairs_nodup {α : Type} (l : List (String × α)) :
    (dictKeys (dictOfPairs l)).Nodup := by
  unfold dictOfPairs
  have : ∀ (l d : List (String × α)), (dictKeys d).Nodup →
      (dictKeys (l.foldl (fun acc p => dictInsert acc p.1 p.2) d)).Nodup := by
    intro l
    induction l with
    | nil => intro d hd; exact hd
    | cons p t ih =>
      intro d hd
      exact ih _ (dictKeys_dictInsert_nodup p.2 hd)
  exact this l [] (by simp [dictKeys])

/- ===== check_in_init fold lemma ===== -/

theorem check_in_init_foldl {V : Type} (inits : List (String × V)) :
    ∀ (targets : List (String × String)) (acc : List String × List (Option V)),
      targets.foldl (check_in_init_step inits) acc =
        (acc.1 ++ (targets.filter
            (fun t => (dictFind inits t.2).isNone)).map (fun t => t.2),
         acc.2 ++ targets.map (fun t => dictFind inits t.2)) := by
  intro targets
  induction targets with
  | nil =>
    intro acc
    simp
  | cons t ts ih =>
    intro acc
    simp only [List.foldl_cons]
    rw [ih]
    cases hf : dictFind inits t.2 with
    | none => simp [check_in_init_step, hf]
    | some v => simp [check_in_init_step, hf]

/- ===== gen_input_output_string fold lemmas ===== -/

theorem ioStep_idx0 {V W : Type} (node : Node V) (inits : List (String × W))
    (ti : Bool) (f : List String) (acc : List String × RenameHelper) (i : Nat) :
    ioStep node inits ti f 0 acc i =
      (acc.1 ++ [refExpr inits acc.2 (f.getD i "")], acc.2) := by
  simp [ioStep]

theorem ioStep_ne_zero {V W : Type} (node : Node V) (inits : List (String × W))
    (ti : Bool) (f : List String) (idx : Nat) (acc : List String × RenameHelper)
    {i : Nat} (h : i ≠ 0) :
    ioStep node inits ti f idx acc i =
      (acc.1 ++ [refExpr inits acc.2 (f.getD i "")], acc.2) := by
  simp [ioStep, h]

theorem foldl_ioStep_simple {V W : Type} (node : Node V) (inits : List (String × W))
    (ti : Bool) (f : List String) (idx : Nat) :
    ∀ (idxs : List Nat) (acc : List String × RenameHelper),
      (∀ (a : List String × RenameHelper) (i : Nat), i ∈ idxs →
        ioStep node inits ti f idx a i =
          (a.1 ++ [refExpr inits a.2 (f.getD i "")], a.2)) →
      idxs.foldl (ioStep node inits ti f idx) acc =
        (acc.1 ++ idxs.map (fun i => refExpr inits acc.2 (f.getD i "")), acc.2) := by
  intro idxs
  induction idxs with
  | nil =>
    intro acc _
    simp
  | cons i it ih =>
    intro acc hstep
    simp only [List.foldl_cons]
    rw [hstep acc i (List.mem_cons_self _ _)]
    rw [ih _ (fun a j hj => hstep a j (List.mem_cons_of_mem _ hj))]
    simp

theorem ioStep_first_output_pos {V W : Type} (node : Node V) (inits : List (String × W))
    (rh : RenameHelper) (ti : Bool) (hc : aliasConditions node inits rh ti) :
    ioStep node inits ti node.output 1 ([], rh) 0 =
      ([refExpr inits (aliasedRH node rh) (node.input.getD 0 "")], aliasedRH node rh) := by
  have h1 := hc.1
  have h2 := hc.2.1
  have h3 := hc.2.2.1
  have h4 := hc.2.2.2.1
  have h5 := hc.2.2.2.2
  simp only [ioStep]
  split
  · simp [aliasedRH]
  · rename_i hx
    exact absurd ⟨by simp, by simp, h1, h2, h3, h4, h5⟩ hx

theorem ioStep_first_output_neg {V W : Type} (node : Node V) (inits : List (String × W))
    (rh : RenameHelper) (ti : Bool) (hc : ¬ aliasConditions node inits rh ti) :
    ioStep node inits ti node.output 1 ([], rh) 0 =
      ([refExpr inits rh (node.output.getD 0 "")], rh) := by
  simp only [ioStep]
  split
  · rename_i hx
    exact absurd ⟨hx.2.2.1, hx.2.2.2.1, hx.2.2.2.2.1, hx.2.2.2.2.2.1, hx.2.2.2.2.2.2⟩ hc
  · simp

theorem gen_default_outputs {V W : Type} (node : Node V) (inits : List (String × W))
    (rh : RenameHelper) (ti : Bool) {m : Nat} (hm : node.output.length = m + 1)
    (firstAcc : List String × RenameHelper)
    (hfirst : ioStep node inits ti node.output 1 ([], rh) 0 = firstAcc) :
    gen_input_output_string node inits rh ti none none =
      ⟨(List.range node.input.length).map
          (fun i => refExpr inits rh (node.input.getD i "")),
        firstAcc.1 ++ (List.range m).map
          (fun i => refExpr inits firstAcc.2 (node.output.getD (i + 1) "")),
        firstAcc.2⟩ := by
  unfold gen_input_output_string
  simp only [numOr]
  rw [foldl_ioStep_simple node inits ti node.input 0 (List.range node.input.length)
    ([], rh) (fun a i _ => ioStep_idx0 node inits ti node.input a i)]
  simp only [List.nil_append]
  rw [hm, List.range_succ_eq_map]
  simp only [List.foldl_cons]
  rw [hfirst]
  rw [foldl_ioStep_simple node inits ti node.output 1 (List.map Nat.succ (List.range m))
    firstAcc (fun a i hi => by
      rcases List.mem_map.mp hi with ⟨j, _, hj⟩
      exact ioStep_ne_zero node inits ti node.output 1 a (hj ▸ Nat.succ_ne_zero j))]
  simp [Function.comp_def, Nat.succ_eq_add_one]

theorem get_tensor_name_aliasedRH {V : Type} (node : Node V) (rh : RenameHelper) :
    (aliasedRH node rh).get_tensor_name (node.input.getD 0 "") =
      rh.get_tensor_name (node.input.getD 0 "") := by
  unfold RenameHelper.get_tensor_name aliasedRH
  simp only []
  by_cases he : node.input.getD 0 "" = node.output.getD 0 ""
  · rw [← he, dictFind_dictInsert_self]
    rfl
  · rw [dictFind_dictInsert_ne _ _ he]

theorem tableWF_mkLoader (mods : List String) : TableWF (mkLoader mods) := by
  unfold CodeGeneratorLoader.mkLoader
  have : ∀ (l : List String) (st : DomainTable), TableWF st →
      TableWF (l.foldl (fun st m => register_code_generator st none m (builtinPack m)) st) := by
    intro l
    induction l with
    | nil => intro st hst; exact hst
    | cons m t ih =>
      intro st hst
      exact ih _ (tableWF_register hst _ _ _)
  exact this mods [] (fun p hp => by simp at hp)

theorem entryPacks_congr (st : DomainTable) {domain domain' : Option String}
    (h : normalizeDomain domain = normalizeDomain domain') (op_name : String) :
    entryPacks st domain op_name = entryPacks st domain' op_name := by
  unfold CodeGeneratorLoader.entryPacks
  rw [h]

theorem entryPacks_foldRegister_other (mods : List String) :
    ∀ (st : DomainTable) (domain' : Option String) (O : String), (∀ m ∈ mods, m ≠ O) →
      entryPacks
        (mods.foldl (fun st m => register_code_generator st none m (builtinPack m)) st)
        domain' O = entryPacks st domain' O := by
  induction mods with
  | nil =>
    intro st d' O _
    rfl
  | cons m t ih =>
    intro st d' O h
    simp only [List.foldl_cons]
    rw [ih _ _ _ (fun x hx => h x (List.mem_cons_of_mem _ hx))]
    exact entryPacks_register_other _ _ _ _ _ _
      (Or.inr (Ne.symm (h m (List.mem_cons_self _ _))))

theorem registerBuiltins_entry (mods : List String) :
    ∀ (st : DomainTable), mods.Nodup →
      (∀ m ∈ mods, entryPacks st (some "ai.onnx") m = none) →
      ∀ m ∈ mods,
        entryPacks
          (mods.foldl (fun st m => register_code_generator st none m (builtinPack m)) st)
          (some "ai.onnx") m = some [builtinPack m] := by
  induction mods with
  | nil =>
    intro st _ _ m hm
    simp at hm
  | cons a t ih =>
    intro st hnd habs m hm
    have hnd' := List.nodup_cons.mp hnd
    have hnorm : normalizeDomain (some "ai.onnx") = normalizeDomain none := by
      simp [normalizeDomain]
    simp only [List.foldl_cons]
    rcases List.mem_cons.mp hm with hma | hm'
    · subst hma
      rw [entryPacks_foldRegister_other t _ (some "ai.onnx") m
        (fun x hx => fun hxm => hnd'.1 (hxm ▸ hx))]
      rw [entryPacks_congr _ hnorm]
      rw [entryPacks_register_self]
      rw [entryPacks_congr _ hnorm.symm]
      rw [habs m hm]
      simp [sortPacksDesc, insertPackDesc]
    · refine ih _ hnd'.2 ?_ m hm'
      intro x hx
      rw [entryPacks_register_other _ _ _ _ _ _
        (Or.inr (fun hxa : x = a => hnd'.1 (hxa ▸ hx)))]
      exact habs x (List.mem_cons_of_mem _ hx)

theorem lastFind_isSome_of_mem_keys {α : Type} {l : List (String × α)} {k : String}
    (h : k ∈ dictKeys l) : (lastFind l k).isSome := by
  induction l with
  | nil => simp [dictKeys] at h
  | cons p t ih =>
    simp only [lastFind]
    cases hlt : lastFind t k with
    | some v => simp
    | none =>
      simp only []
      rcases List.mem_cons.mp h with hk | hk
      · simp [hk]
      · have hs := ih hk
        rw [hlt] at hs
        simp at hs

theorem lastFind_eq_none_of_not_mem_keys {α : Type} {l : List (String × α)} {k : String}
    (h : k ∉ dictKeys l) : lastFind l k = none := by
  induction l with
  | nil => rfl
  | cons p t ih =>
    have h1 : ¬ p.1 = k := by
      intro hh
      apply h
      rw [← hh]
      exact List.mem_cons_self _ _
    have h2 : k ∉ dictKeys t := fun hh => h (List.mem_cons_of_mem _ hh)
    simp [lastFind, ih h2, h1]

theorem register_from_py_file_foldl (module : String) (classes : List PyClass) :
    ∀ acc : DomainTable × Nat,
      classes.foldl
        (fun acc c =>
          if qualifies c then
            (register_code_generator acc.1 (some (c.op_domain.getD "custom"))
              (c.op_name.getD c.name)
              ⟨c.op_version.getD 1, module, c.name⟩,
             acc.2 + 1)
          else acc) acc =
      ((classes.filter qualifies).foldl
        (fun st c => register_code_generator st (some (c.op_domain.getD "custom"))
          (c.op_name.getD c.name) ⟨c.op_version.getD 1, module, c.name⟩) acc.1,
       acc.2 + (classes.filter qualifies).length) := by
  induction classes with
  | nil =>
    intro acc
    simp
  | cons c t ih =>
    intro acc
    cases hqc : qualifies c with
    | true =>
      simp only [List.foldl_cons, hqc, if_true, List.filter_cons, List.length_cons]
      rw [ih]
      exact Prod.ext rfl (by omega)
    | false =>
      simp only [List.foldl_cons, hqc, Bool.false_eq_true, if_false, List.filter_cons]
      exact ih acc

/- ===== claims ===== -/

/-- C1: version-aware lookup. For any registry state: a missing
(domain, operator) entry yields None for every requested version; with no
requested version the head of the version-descending pack list — the
highest-versioned pack — is instantiated; with a requested version the first
pack at or below it is instantiated, and when every registered version
exceeds the request the result is None. Concretely, packs at versions 9 and
13 under any (D, O) give lookup(D,O,11) the version-9 pack, lookup(D,O,None)
the version-13 pack and lookup(D,O,5) None. -/
theorem claim_C1_version_lookup (st : DomainTable) (domain : Option String)
    (op_name : String) :
    (entryPacks st domain op_name = none →
      ∀ version, CodeGeneratorLoader.get st domain op_name version = none) ∧
    (∀ p t, entryPacks st domain op_name = some (p :: t) → PacksSortedDesc (p :: t) →
      CodeGeneratorLoader.get st domain op_name none = some p.new ∧
      ∀ q ∈ p :: t, q.version ≤ p.version) ∧
    (∀ packs v, entryPacks st domain op_name = some packs →
      ((∀ q ∈ packs, v < q.version) →
        CodeGeneratorLoader.get st domain op_name (some v) = none) ∧
      (∀ p, packs.find? (fun q => v ≥ q.version) = some p →
        CodeGeneratorLoader.get st domain op_name (some v) = some p.new)) ∧
    (∀ p9 p13 : CodeGeneratorPack, p9.version = 9 → p13.version = 13 →
      let st2 := register_code_generator
        (register_code_generator [] domain op_name p9) domain op_name p13
      CodeGeneratorLoader.get st2 domain op_name (some 11) = some p9.new ∧
      CodeGeneratorLoader.get st2 domain op_name none = some p13.new ∧
      CodeGeneratorLoader.get st2 domain op_name (some 5) = none) := by
  refine ⟨?_, ?_, ?_, ?_⟩
  · intro h version
    rw [get_eq_entryPacks, h]
  · intro p t h hsorted
    rw [get_eq_entryPacks, h]
    refine ⟨rfl, ?_⟩
    intro q hq
    rcases List.mem_cons.mp hq with hq | hq
    · exact hq ▸ le_refl _
    · exact (List.pairwise_cons.mp hsorted).1 q hq
  · intro packs v h
    constructor
    · intro hall
      rw [get_eq_entryPacks, h]
      simp only [List.find?_eq_none]
      have : packs.find? (fun q => v ≥ q.version) = none := by
        rw [List.find?_eq_none]
        intro q hq
        simp only [ge_iff_le, decide_eq_true_eq]
        exact not_le.mpr (hall q hq)
      simp [this]
    · intro p hp
      rw [get_eq_entryPacks, h]
      simp [hp]
  · intro p9 p13 h9 h13
    have h1 : entryPacks (register_code_generator [] domain op_name p9) domain op_name =
        some [p9] := by
      rw [entryPacks_register_self]
      have : entryPacks ([] : DomainTable) domain op_name = none := by
        unfold CodeGeneratorLoader.entryPacks
        simp [dictFind]
      rw [this]
      simp [sortPacksDesc, insertPackDesc]
    have h2 : entryPacks (register_code_generator
        (register_code_generator [] domain op_name p9) domain op_name p13)
        domain op_name = some [p13, p9] := by
      rw [entryPacks_register_self, h1]
      simp [sortPacksDesc, insertPackDesc, h9, h13]
    refine ⟨?_, ?_, ?_⟩
    · rw [get_eq_entryPacks, h2]
      simp [List.find?, h9, h13]
    · rw [get_eq_entryPacks, h2]
      simp
    · rw [get_eq_entryPacks, h2]
      simp [List.find?, h9, h13]

/-- C3: builtin self-population. Constructing the loader registers every
builtin module (their names are pairwise distinct, being Python module
names) under the canonical default domain ai.onnx, each with a single pack
whose version is the fixed builtin version 5 — the opset version the
registry currently supports for builtins (code_generator_loader.py:137). -/
theorem claim_C3_builtin_population (mods : List String) (hnd : mods.Nodup) :
    ∀ m ∈ mods, entryPacks (mkLoader mods) (some "ai.onnx") m =
      some [⟨5, m, m ++ "OpCodeGenerator"⟩] := by
  intro m hm
  unfold CodeGeneratorLoader.mkLoader
  have := registerBuiltins_entry mods [] hnd (fun x _ => by
    unfold CodeGeneratorLoader.entryPacks
    simp [dictFind]) m hm
  exact this

/-- C4: the claim says remove(domain) with the operator omitted raises no
error and leaves the domain absent. The code does delete the domain but then
unconditionally evaluates len(self.domain2opset[domain]) on the key it just
deleted, raising KeyError (code_generator_loader.py:108, 111): drop on a
present domain with no operator always errors. The second conjunct shows the
cascade part of the claim (removing the only operator also removes the
domain) does hold. -/
theorem claim_C4_remove_domain_keyerror :
    CodeGeneratorLoader.drop [("custom", [("Foo", [⟨1, "m", "C"⟩])])] "custom" none =
      ⟨[], true⟩ ∧
    CodeGeneratorLoader.drop [("custom", [("Foo", [⟨1, "m", "C"⟩])])] "custom"
      (some "Foo") = ⟨[], false⟩ := by
  constructor
  · rfl
  · rfl

/-- C5: every state reachable from a constructed loader (builtins registered)
by any sequence of register, drop and reset satisfies the table invariant:
no empty-string domain key, no empty operator map, and every entry a
non-empty pack list sorted by version descending. -/
theorem claim_C5_table_invariant (mods : List String) (st : DomainTable)
    (h : ReachableFrom (mkLoader mods) st) : TableWF st :=
  tableWF_of_reachableFrom (tableWF_mkLoader mods) h

/-- C6: count semantics. The length of the loader counts (domain, operator)
entries: registering a pack under an already-present (domain, operator) pair
leaves it unchanged — even though the pack list grows — while registering
under a fresh pair increases it by exactly one. -/
theorem claim_C6_count_pairs (st : DomainTable) (domain : Option String)
    (op_name : String) (pack : CodeGeneratorPack) :
    ((entryPacks st domain op_name).isSome →
      CodeGeneratorLoader.len (register_code_generator st domain op_name pack) =
        CodeGeneratorLoader.len st) ∧
    (entryPacks st domain op_name = none →
      CodeGeneratorLoader.len (register_code_generator st domain op_name pack) =
        CodeGeneratorLoader.len st + 1) := by
  constructor
  · intro h
    rw [len_register]
    simp [h]
  · intro h
    rw [len_register]
    simp [h]

/-- C10: removing a domain that is not in the table, or an operator that is
not registered under a present domain, is a silent no-op: no error is raised
and the table is unchanged. The second part uses the table invariant (which
every reachable registry state satisfies) through the hypothesis that the
present domain's operator map is as stored, hence non-empty. -/
theorem claim_C10_remove_missing_noop (st : DomainTable) (hWF : TableWF st)
    (domain : String) :
    (dictFind st domain = none →
      ∀ op_name, CodeGeneratorLoader.drop st domain op_name = ⟨st, false⟩) ∧
    (∀ opset op, dictFind st domain = some opset → dictFind opset op = none →
      CodeGeneratorLoader.drop st domain (some op) = ⟨st, false⟩) := by
  constructor
  · intro h op_name
    unfold CodeGeneratorLoader.drop
    simp [dictContains, h]
  · intro opset op hfd hfo
    have hne : opset ≠ [] := (hWF _ (dictFind_mem hfd)).2.1
    have hlen : opset.length ≠ 0 := fun hz => hne (List.length_eq_zero.mp hz)
    unfold CodeGeneratorLoader.drop
    simp only [dictContains, hfd, Option.isSome_some, if_true, Option.getD_some, hfo,
      Option.isSome_none, Bool.false_eq_true, if_false, hlen]

/-- C7: constant-operand enforcement. check_in_init fails exactly when some
target tensor name is absent from the initializers; the failure carries every
missing name (in target order) and only missing names; on success the
resolved constant values come back in target order. -/
theorem claim_C7_constant_operands {V : Type} (targets : List (String × String))
    (inits : List (String × V)) :
    ((∀ t ∈ targets, (dictFind inits t.2).isSome) →
      check_in_init targets inits =
        Except.ok (targets.map (fun t => dictFind inits t.2))) ∧
    ((∃ t ∈ targets, dictFind inits t.2 = none) →
      check_in_init targets inits =
        Except.error ((targets.filter
          (fun t => (dictFind inits t.2).isNone)).map (fun t => t.2))) ∧
    (∀ n, n ∈ (targets.filter
        (fun t => (dictFind inits t.2).isNone)).map (fun t => t.2) ↔
      ∃ t ∈ targets, t.2 = n ∧ dictFind inits n = none) := by
  refine ⟨?_, ?_, ?_⟩
  · intro h
    unfold check_in_init
    rw [check_in_init_foldl]
    have hfil : targets.filter (fun t => (dictFind inits t.2).isNone) = [] := by
      rw [List.filter_eq_nil_iff]
      intro t ht
      have hs := h t ht
      cases hdf : dictFind inits t.2 with
      | none =>
        rw [hdf] at hs
        simp at hs
      | some v => simp [hdf]
    simp [hfil]
  · rintro ⟨t, ht, htn⟩
    have hmem : t.2 ∈ (targets.filter
        (fun t => (dictFind inits t.2).isNone)).map (fun t => t.2) :=
      List.mem_map.mpr ⟨t, List.mem_filter.mpr ⟨ht, by simp [htn]⟩, rfl⟩
    have hne := List.ne_nil_of_mem hmem
    unfold check_in_init
    rw [check_in_init_foldl]
    simp only [List.nil_append]
    rw [if_neg hne]
  · intro n
    constructor
    · intro hn
      rcases List.mem_map.mp hn with ⟨t, ht, hn'⟩
      rcases List.mem_filter.mp ht with ⟨ht1, ht2⟩
      refine ⟨t, ht1, hn', ?_⟩
      rw [← hn']
      exact Option.isNone_iff_eq_none.mp (by simpa using ht2)
    · rintro ⟨t, ht, rfl, hnone⟩
      exact List.mem_map.mpr ⟨t, List.mem_filter.mpr ⟨ht, by simp [hnone]⟩, rfl⟩

/-- C8: attribute merge. The merged attribute dict is the defaults overridden
key by key by the attributes on the node: with no node attributes it is the
defaults exactly; a name carried by the node resolves to the node's (last)
value; any other name keeps its default. The defaults come from a Python
dict, hence the no-duplicate-keys hypothesis. -/
theorem claim_C8_merged_attributes {V : Type} (attr_default : List (String × V))
    (node : Node V) (hnd : (dictKeys attr_default).Nodup) :
    (node.attrs = [] → get_attr_value_dict attr_default node = attr_default) ∧
    (∀ name, dictFind (get_attr_value_dict attr_default node) name =
      match lastFind node.attrs name with
      | some v => some v
      | none => dictFind attr_default name) ∧
    (∀ name, name ∈ dictKeys node.attrs →
      dictFind (get_attr_value_dict attr_default node) name = lastFind node.attrs name ∧
      (lastFind node.attrs name).isSome) ∧
    (∀ name, name ∉ dictKeys node.attrs →
      dictFind (get_attr_value_dict attr_default node) name =
        dictFind attr_default name) := by
  have master : ∀ name, dictFind (get_attr_value_dict attr_default node) name =
      match lastFind node.attrs name with
      | some v => some v
      | none => dictFind attr_default name := by
    intro name
    unfold get_attr_value_dict
    rw [dictFind_dictOfPairs, lastFind_append]
    rw [lastFind_eq_dictFind_of_nodup (dictKeys_dictOfPairs_nodup node.attrs)]
    rw [dictFind_dictOfPairs]
    rw [lastFind_eq_dictFind_of_nodup hnd]
  refine ⟨?_, master, ?_, ?_⟩
  · intro h
    simp only [get_attr_value_dict, h]
    rw [show dictOfPairs ([] : List (String × V)) = [] from rfl, List.append_nil,
      dictOfPairs_eq_self hnd]
  · intro name hmem
    have hs := lastFind_isSome_of_mem_keys hmem
    rcases Option.isSome_iff_exists.mp hs with ⟨v, hv⟩
    rw [master name, hv]
    simp [hv]
  · intro name hmem
    rw [master name, lastFind_eq_none_of_not_mem_keys hmem]

/-- C9: loading custom generators from a source file. The loop registers one
pack per qualifying class (CustomOpCodeGenerator subclasses other than the
base itself) and returns how many; metadata defaults are domain custom,
operator name the class name, version 1. For a source declaring class A with
operator Foo version 2 and class B with no metadata, against a registry with
no custom domain yet: the count is 2, lookup custom/Foo/2 instantiates A's
pack and lookup custom/B-name/None instantiates B's pack. -/
theorem claim_C9_register_from_py_file (st : DomainTable) (module : String)
    (A B : PyClass)
    (hA1 : A.custom = true) (hA2 : A.name ≠ "CustomOpCodeGenerator")
    (hA3 : A.op_domain = none) (hA4 : A.op_name = some "Foo")
    (hA5 : A.op_version = some 2)
    (hB1 : B.custom = true) (hB2 : B.name ≠ "CustomOpCodeGenerator")
    (hB3 : B.op_domain = none) (hB4 : B.op_name = none) (hB5 : B.op_version = none)
    (hBF : B.name ≠ "Foo") (hst : dictFind st "custom" = none) :
    (∀ (st' : DomainTable) (classes : List PyClass),
      (register_from_py_file st' module classes).2 =
        (classes.filter qualifies).length) ∧
    (register_from_py_file st module [A, B]).2 = 2 ∧
    CodeGeneratorLoader.get (register_from_py_file st module [A, B]).1
      (some "custom") "Foo" (some 2) =
      some (CodeGeneratorPack.new ⟨2, module, A.name⟩) ∧
    CodeGeneratorLoader.get (register_from_py_file st module [A, B]).1
      (some "custom") B.name none =
      some (CodeGeneratorPack.new ⟨1, module, B.name⟩) := by
  have hqA : qualifies A = true := by simp [qualifies, hA1, hA2]
  have hqB : qualifies B = true := by simp [qualifies, hB1, hB2]
  have hr : register_from_py_file st module [A, B] =
      (register_code_generator
        (register_code_generator st (some "custom") "Foo" ⟨2, module, A.name⟩)
        (some "custom") B.name ⟨1, module, B.name⟩, 2) := by
    unfold CodeGeneratorLoader.register_from_py_file
    rw [register_from_py_file_foldl]
    simp [hqA, hqB, hA3, hA4, hA5, hB3, hB4, hB5, List.filter_cons]
  have e0 : ∀ X, entryPacks st (some "custom") X = none := by
    intro X
    unfold CodeGeneratorLoader.entryPacks
    simp [normalizeDomain, hst]
  have e1 : entryPacks
      (register_code_generator st (some "custom") "Foo" ⟨2, module, A.name⟩)
      (some "custom") "Foo" = some [⟨2, module, A.name⟩] := by
    rw [entryPacks_register_self, e0]
    simp [sortPacksDesc, insertPackDesc]
  have e2 : entryPacks (register_code_generator
      (register_code_generator st (some "custom") "Foo" ⟨2, module, A.name⟩)
      (some "custom") B.name ⟨1, module, B.name⟩) (some "custom") "Foo" =
      some [⟨2, module, A.name⟩] := by
    rw [entryPacks_register_other _ _ _ _ _ _ (Or.inr (fun hh => hBF hh.symm))]
    exact e1
  have e3 : entryPacks
      (register_code_generator st (some "custom") "Foo" ⟨2, module, A.name⟩)
      (some "custom") B.name = none := by
    rw [entryPacks_register_other _ _ _ _ _ _ (Or.inr hBF)]
    exact e0 B.name
  have e4 : entryPacks (register_code_generator
      (register_code_generator st (some "custom") "Foo" ⟨2, module, A.name⟩)
      (some "custom") B.name ⟨1, module, B.name⟩) (some "custom") B.name =
      some [⟨1, module, B.name⟩] := by
    rw [entryPacks_register_self, e3]
    simp [sortPacksDesc, insertPackDesc]
  refine ⟨?_, ?_, ?_, ?_⟩
  · intro st' classes
    unfold CodeGeneratorLoader.register_from_py_file
    rw [register_from_py_file_foldl]
    simp
  · rw [hr]
  · rw [hr]
    simp only []
    rw [get_eq_entryPacks, e2]
    simp [List.find?]
  · rw [hr]
    simp only []
    rw [get_eq_entryPacks, e4]
    simp

/-- C2: alias rule. With the default input and output counts, when all five
conditions hold (aliasing enabled, at least one input, first input not an
initializer, first-output and first-input usage counts both exactly 2) the
first output is remapped in the usage ledger to the first input's canonical
name and the emitted first output expression is that canonical input name;
when any condition fails, the ledger is untouched and the first output keeps
its own reference expression. -/
theorem claim_C2_alias_rule {V W : Type} (node : Node V) (inits : List (String × W))
    (rh : RenameHelper) (ti : Bool) (hout : 0 < node.output.length) :
    (aliasConditions node inits rh ti →
      (gen_input_output_string node inits rh ti none none).rename_helper =
        aliasedRH node rh ∧
      (gen_input_output_string node inits rh ti none none).outputs_str.head? =
        some (rh.get_tensor_name (node.input.getD 0 ""))) ∧
    (¬ aliasConditions node inits rh ti →
      (gen_input_output_string node inits rh ti none none).rename_helper = rh ∧
      (gen_input_output_string node inits rh ti none none).outputs_str.head? =
        some (refExpr inits rh (node.output.getD 0 ""))) := by
  obtain ⟨m, hm⟩ : ∃ m, node.output.length = m + 1 :=
    ⟨node.output.length - 1, by omega⟩
  constructor
  · intro hc
    have hgen := gen_default_outputs node inits rh ti hm _
      (ioStep_first_output_pos node inits rh ti hc)
    rw [hgen]
    refine ⟨rfl, ?_⟩
    show some (refExpr inits (aliasedRH node rh) (node.input.getD 0 "")) = _
    unfold refExpr
    rw [if_neg (by rw [hc.2.2.1]; simp)]
    rw [get_tensor_name_aliasedRH]
  · intro hc
    have hgen := gen_default_outputs node inits rh ti hm _
      (ioStep_first_output_neg node inits rh ti hc)
    rw [hgen]
    exact ⟨rfl, by simp⟩

/- ===== witnesses ===== -/

/-- Witness for C1 at a concrete two-pack registry. -/
theorem claim_C1_version_lookup_witness :
    CodeGeneratorLoader.get
      [("d", [("o", [⟨13, "m13", "C13"⟩, ⟨9, "m9", "C9"⟩])])] (some "d") "o" none =
      some (CodeGeneratorPack.new ⟨13, "m13", "C13"⟩) ∧
    CodeGeneratorLoader.get
      [("d", [("o", [⟨13, "m13", "C13"⟩, ⟨9, "m9", "C9"⟩])])] (some "d") "o" (some 11) =
      some (CodeGeneratorPack.new ⟨9, "m9", "C9"⟩) := by
  constructor
  · exact ((claim_C1_version_lookup
        [("d", [("o", [⟨13, "m13", "C13"⟩, ⟨9, "m9", "C9"⟩])])] (some "d") "o").2.1
      ⟨13, "m13", "C13"⟩ [⟨9, "m9", "C9"⟩] (by decide) (by decide)).1
  · exact ((claim_C1_version_lookup
        [("d", [("o", [⟨13, "m13", "C13"⟩, ⟨9, "m9", "C9"⟩])])] (some "d") "o").2.2.1
      [⟨13, "m13", "C13"⟩, ⟨9, "m9", "C9"⟩] 11 (by decide)).2
      ⟨9, "m9", "C9"⟩ (by decide)

/-- Witness for C2: a node with one input and one output, both used exactly
twice, input not an initializer, aliasing on — the emitted first output
expression is the input's canonical name. -/
theorem claim_C2_alias_rule_witness :
    (gen_input_output_string (V := Nat) (W := Nat) ⟨["x"], ["y"], []⟩ []
        ⟨fun n => if n = "x" ∨ n = "y" then 2 else 0, [], fun n => n⟩
        true none none).outputs_str.head? =
      some (RenameHelper.get_tensor_name
        ⟨fun n => if n = "x" ∨ n = "y" then 2 else 0, [], fun n => n⟩ "x") :=
  ((claim_C2_alias_rule ⟨["x"], ["y"], []⟩ []
      ⟨fun n => if n = "x" ∨ n = "y" then 2 else 0, [], fun n => n⟩ true
      (by decide)).1
    (by
      unfold aliasConditions
      refine ⟨rfl, ?_, ?_, ?_, ?_⟩ <;> decide)).2

/-- Witness for C3 with a single builtin module. -/
theorem claim_C3_builtin_population_witness :
    entryPacks (mkLoader ["Add"]) (some "ai.onnx") "Add" =
      some [⟨5, "Add", "AddOpCodeGenerator"⟩] :=
  claim_C3_builtin_population ["Add"] (by decide) "Add" (by decide)

/-- Witness for C5: the freshly constructed loader itself. -/
theorem claim_C5_table_invariant_witness : TableWF (mkLoader ["Add"]) :=
  claim_C5_table_invariant ["Add"] (mkLoader ["Add"]) Relation.ReflTransGen.refl

/-- Witness for C6: a second version under a present pair keeps the count at
1, a fresh pair moves it to 2. -/
theorem claim_C6_count_pairs_witness :
    CodeGeneratorLoader.len (register_code_generator
      [("ai.onnx", [("Add", [⟨5, "Add", "A"⟩])])] none "Add" ⟨9, "m", "C"⟩) = 1 ∧
    CodeGeneratorLoader.len (register_code_generator
      [("ai.onnx", [("Add", [⟨5, "Add", "A"⟩])])] none "Mul" ⟨9, "m", "C"⟩) = 2 := by
  constructor
  · exact (claim_C6_count_pairs [("ai.onnx", [("Add", [⟨5, "Add", "A"⟩])])]
      none "Add" ⟨9, "m", "C"⟩).1 (by decide)
  · exact (claim_C6_count_pairs [("ai.onnx", [("Add", [⟨5, "Add", "A"⟩])])]
      none "Mul" ⟨9, "m", "C"⟩).2 (by decide)

/-- Witness for C7: of two requested names one is missing; the failure names
exactly the missing one. -/
theorem claim_C7_constant_operands_witness :
    check_in_init [("a", "w"), ("b", "q")] [("w", (1 : Nat))] =
      Except.error ["q"] :=
  (claim_C7_constant_operands [("a", "w"), ("b", "q")] [("w", (1 : Nat))]).2.1
    ⟨("b", "q"), by decide, by decide⟩

/-- Witness for C8: a node with no attributes keeps the defaults exactly. -/
theorem claim_C8_merged_attributes_witness :
    get_attr_value_dict [("alpha", (1 : Nat)), ("beta", 2)] ⟨[], [], []⟩ =
      [("alpha", 1), ("beta", 2)] :=
  (claim_C8_merged_attributes [("alpha", (1 : Nat)), ("beta", 2)] ⟨[], [], []⟩
    (by decide)).1 rfl

/-- Witness for C9: the two-class scenario at the empty registry. -/
theorem claim_C9_register_from_py_file_witness :
    (register_from_py_file [] "mod"
      [⟨"A", true, none, some "Foo", some 2⟩, ⟨"B", true, none, none, none⟩]).2 = 2 ∧
    CodeGeneratorLoader.get (register_from_py_file [] "mod"
      [⟨"A", true, none, some "Foo", some 2⟩, ⟨"B", true, none, none, none⟩]).1
      (some "custom") "Foo" (some 2) = some (CodeGeneratorPack.new ⟨2, "mod", "A"⟩) := by
  have h := claim_C9_register_from_py_file [] "mod"
    ⟨"A", true, none, some "Foo", some 2⟩ ⟨"B", true, none, none, none⟩
    rfl (by decide) rfl rfl rfl rfl (by decide) rfl rfl rfl (by decide) rfl
  exact ⟨h.2.1, h.2.2.1⟩

/-- Witness for C10: dropping an absent domain, and an absent operator under
a present domain, both leave a concrete table unchanged with no error. -/
theorem claim_C10_remove_missing_noop_witness :
    CodeGeneratorLoader.drop [("d", [("o", [⟨1, "m", "C"⟩])])] "x" none =
      ⟨[("d", [("o", [⟨1, "m", "C"⟩])])], false⟩ ∧
    CodeGeneratorLoader.drop [("d", [("o", [⟨1, "m", "C"⟩])])] "d" (some "p") =
      ⟨[("d", [("o", [⟨1, "m", "C"⟩])])], false⟩ := by
  constructor
  · exact (claim_C10_remove_missing_noop [("d", [("o", [⟨1, "m", "C"⟩])])]
      (by unfold TableWF; decide) "x").1 (by decide) none
  · exact (claim_C10_remove_missing_noop [("d", [("o", [⟨1, "m", "C"⟩])])]
      (by unfold TableWF; decide) "d").2 [("o", [⟨1, "m", "C"⟩])] "p"
      (by decide) (by decide)

end OnnxPytorch
